import Mathlib

/-!
# Verification of the form-dashboard submission view & export engine

Shallow embedding of the export logic of `src/components/Dashboard.js`:
name splitting, schema inference, date-range filtering, CSV export,
consent-field ordering, consent-PDF rendering and the sync-result
state machine, together with theorems settling the specification claims.

JS strings are modelled as Lean `String`; JS timestamps as `Int`
milliseconds since the Unix epoch (the locale is taken to be UTC);
JS `null`/absent values as `Option`.
-/

namespace FormDashboard

/-! ## Whitespace utilities (JS `\s`, `String.prototype.trim`) -/

def isWs (c : Char) : Bool := c.isWhitespace

/-- JS `String.prototype.trim` on the character list of a string. -/
def trimChars (l : List Char) : List Char :=
  ((l.dropWhile isWs).reverse.dropWhile isWs).reverse

/-- JS `str.split(/\s+/)` on a string with no leading whitespace:
the maximal runs of non-whitespace characters, accumulated left to right.
`acc` holds the (reversed) characters of the chunk currently being read. -/
def tokensAux : List Char → List Char → List (List Char)
  | [], acc => if acc.isEmpty then [] else [acc.reverse]
  | c :: cs, acc =>
    if isWs c then
      if acc.isEmpty then tokensAux cs [] else acc.reverse :: tokensAux cs []
    else tokensAux cs (c :: acc)

/-- `splitName` from Dashboard.js lines 24–30: trim, split on runs of
whitespace, first token / rest rejoined with single spaces. -/
def splitName (s : String) : String × String :=
  let raw := trimChars s.data
  if raw.isEmpty then ("", "")
  else
    match tokensAux raw [] with
    | [] => ("", "")
    | [t] => (String.mk t, "")
    | t :: ts => (String.mk t, String.intercalate " " (ts.map String.mk))

/-- Splitting at every whitespace character, keeping empty chunks
(an independent formulation of run-splitting used as the spec side). -/
def splitChar : List Char → List (List Char)
  | [] => [[]]
  | c :: cs =>
    if isWs c then [] :: splitChar cs
    else
      match splitChar cs with
      | t :: ts => (c :: t) :: ts
      | [] => [[c]]

/-- Spec-side tokenizer: split at whitespace characters and drop the
empty chunks ("splits on runs of whitespace"). -/
def tokensSpec (l : List Char) : List (List Char) :=
  (splitChar l).filter (fun t => !t.isEmpty)

/-- `NameSplitter` as the specification words it: trim; empty gives
`("", "")`; one token gives `(token, "")`; otherwise the first token and
the remaining tokens rejoined with single spaces. -/
def nameSplitterSpec (s : String) : String × String :=
  let raw := trimChars s.data
  match tokensSpec raw with
  | [] => ("", "")
  | [t] => (String.mk t, "")
  | t :: ts => (String.mk t, String.intercalate " " (ts.map String.mk))

/-! ## Submissions and the date-range filter -/

/-- One submission record: timestamp in epoch milliseconds and an ordered
field-label-to-value mapping (`null` values as `none`). -/
structure SubmissionRec where
  submitted_at : Int
  submission_data : List (String × Option String)
deriving DecidableEq, Repr

/-- Epoch milliseconds of UTC midnight of a calendar day given as a day
index (days since 1970-01-01); the meaning of JS `new Date('YYYY-MM-DD')`. -/
def parseDateMs (d : Nat) : Int := (d : Int) * 86400000

/-- `new Date('2099-12-31')` in epoch milliseconds. -/
def MAX_DEFAULT_MS : Int := 4102358400000

/-- `filteredSubmissions` from Dashboard.js lines 352–361: when both date
bounds are absent the list is returned as is; otherwise a submission is
kept when `start <= submittedAt <= end` where an absent start defaults to
`new Date('1970-01-01')` and an absent end to `new Date('2099-12-31')`,
and the end bound is advanced to 23:59:59.999 of its day. -/
def filteredSubmissions (subs : List SubmissionRec)
    (startDate endDate : Option Nat) : List SubmissionRec :=
  if startDate = none ∧ endDate = none then subs
  else
    subs.filter (fun sub =>
      let start : Int := match startDate with
        | some d => parseDateMs d
        | none => 0
      let endB : Int := (match endDate with
        | some d => parseDateMs d
        | none => MAX_DEFAULT_MS) + 86399999
      decide (start ≤ sub.submitted_at ∧ sub.submitted_at ≤ endB))

/-- The date filter as the claim words it: an absent bound is genuinely
unbounded; a present start bound means start-of-day, a present end bound
means 23:59:59.999 of that day. -/
def dateFilterClaim (subs : List SubmissionRec)
    (startDate endDate : Option Nat) : List SubmissionRec :=
  subs.filter (fun sub =>
    (match startDate with
      | some d => decide (parseDateMs d ≤ sub.submitted_at)
      | none => true)
    && (match endDate with
      | some d => decide (sub.submitted_at ≤ parseDateMs d + 86399999)
      | none => true))

/-! ## Schema inference (`hasCompoundName`, `dataKeys`, `columns`) -/

/-- The keys of a submission's data, in stored order. -/
def keysOf (s : SubmissionRec) : List String := s.submission_data.map Prod.fst

/-- `hasCompoundName` from Dashboard.js lines 364–367: some submission's
data contains the literal key `"Name"`. -/
def hasCompoundName (subs : List SubmissionRec) : Bool :=
  subs.any (fun sub => (keysOf sub).contains "Name")

/-- One step of the `dataKeys` accumulation: append a key if it has not
been seen, skipping `"Name"` when a compound name is present. -/
def dataKeysStep (hcn : Bool) (acc : List String) (key : String) : List String :=
  if hcn && key == "Name" then acc
  else if acc.contains key then acc else acc ++ [key]

/-- `dataKeys` from Dashboard.js lines 369–380: first-seen-order distinct
keys over all submissions, skipping `"Name"` when `hasCompoundName`. -/
def dataKeys (subs : List SubmissionRec) : List String :=
  if subs.isEmpty then []
  else
    subs.foldl (fun acc sub => (keysOf sub).foldl (dataKeysStep (hasCompoundName subs)) acc) []

/-- `columns` from Dashboard.js lines 382–386. -/
def columns (subs : List SubmissionRec) : List String :=
  if subs.isEmpty then []
  else if hasCompoundName subs then
    "First Name" :: "Last Name" :: (dataKeys subs ++ ["Submitted", ""])
  else dataKeys subs ++ ["Submitted", ""]

/-- Spec-side: the distinct elements of a list in order of first
occurrence. -/
def firstSeen : List String → List String
  | [] => []
  | x :: xs => x :: firstSeen (xs.filter (fun y => y ≠ x))
termination_by l => l.length
decreasing_by
  simp only [List.length_cons]
  exact Nat.lt_succ_of_le (List.length_filter_le _ _)

/-! ## Consent-field ordering -/

/-- `CONSENT_FIELD_ORDER` from Dashboard.js lines 1153–1179. -/
def CONSENT_FIELD_ORDER : List String := [
  "Company Name (official company name to include on invoices)",
  "Client Name (main point of contact)",
  "Client Email",
  "Client Phone",
  "Street Address",
  "City",
  "State",
  "ZIP Code",
  "Company Main Phone Number",
  "Company Website",
  "Is your physical address different from your mailing address?",
  "Accounting Contact Name",
  "Accounting Contact Email",
  "Accounting Contact Phone Number",
  "Is your accounting address different from your mailing address?",
  "Sales Tax Status",
  "Additional Invoicing Instructions",
  "Payment",
  "Payment to Media Vendors",
  "Production & Hard Costs Billing",
  "Sales Tax",
  "Overdue Invoices",
  "Artificial Intelligence",
  "Termination",
  "Signature"]

/-- The sort key of the comparator in `sortedConsentEntries` (Dashboard.js
lines 1183–1188): the index in `CONSENT_FIELD_ORDER`, or 9999 when the key
is absent (JS `indexOf` returning -1). -/
def fieldPos (k : String) : Nat :=
  if CONSENT_FIELD_ORDER.contains k then CONSENT_FIELD_ORDER.indexOf k else 9999

/-- Stable insertion of an entry into a list already sorted by `fieldPos`:
the new element goes before the first element of strictly larger-or-equal
position, so earlier-input elements precede equal-position later ones. -/
def insertByPos (e : String × Option String) :
    List (String × Option String) → List (String × Option String)
  | [] => [e]
  | x :: xs => if fieldPos e.1 ≤ fieldPos x.1 then e :: x :: xs else x :: insertByPos e xs

/-- `sortedConsentEntries` from Dashboard.js lines 1181–1190: JS
`Array.prototype.sort` with comparator `aPos - bPos` is a stable sort by
`fieldPos`, embedded as a stable insertion sort. -/
def sortedConsentEntries :
    List (String × Option String) → List (String × Option String)
  | [] => []
  | x :: xs => insertByPos x (sortedConsentEntries xs)

/-! ## CSV export -/

/-- `data?.[k] ?? ''` / `data?.Name` coerced through `String(v ?? '')`:
the stored value, or `""` when the key is absent or its value null. -/
def getVal (d : List (String × Option String)) (k : String) : String :=
  match d.find? (fun e => e.1 == k) with
  | some e => e.2.getD ""
  | none => ""

/-- The quote-doubling of Dashboard.js line 402, `.replace(/"/g, '""')`:
every `"` character becomes `""`. -/
def escapeQuotes (v : String) : String :=
  String.mk (v.data.flatMap (fun c => if c = '"' then ['"', '"'] else [c]))

/-- One CSV cell as emitted on Dashboard.js line 402: the escaped value
wrapped in double quotes. -/
def csvCell (v : String) : String := "\"" ++ escapeQuotes v ++ "\""

/-- Spec-side inverse of the quoting: collapse each doubled quote. -/
def unescapeAux : List Char → List Char
  | [] => []
  | [c] => [c]
  | c :: c2 :: cs =>
    if c = '"' ∧ c2 = '"' then '"' :: unescapeAux cs
    else c :: unescapeAux (c2 :: cs)

def unescapeQuotes (v : String) : String := String.mk (unescapeAux v.data)

/-- The value list of one CSV data row (Dashboard.js lines 395–401):
optional split name, then the `dataKeys` values, then the formatted
timestamp. `fmt` abstracts `new Date(t).toLocaleString()`. -/
def rowValues (fmt : Int → String) (hcn : Bool) (keys : List String)
    (sub : SubmissionRec) : List String :=
  let data := sub.submission_data
  let fl := splitName (getVal data "Name")
  (if hcn then [fl.1, fl.2] else []) ++ keys.map (getVal data) ++ [fmt sub.submitted_at]

/-- The emitted CSV data rows (Dashboard.js lines 394–403). -/
def csvDataRows (fmt : Int → String) (subs : List SubmissionRec)
    (startDate endDate : Option Nat) : List String :=
  (filteredSubmissions subs startDate endDate).map (fun sub =>
    String.intercalate ","
      ((rowValues fmt (hasCompoundName subs) (dataKeys subs) sub).map csvCell))

/-- Result of the CSV export: either the no-op "nothing to export" signal
or a delivered file. -/
inductive CSVResult where
  | nothingToExport
  | file (name : String) (content : String)
deriving DecidableEq, Repr

/-- `downloadCSV` from Dashboard.js lines 389–412. `formName` abstracts
`selectedForm?.form_name` (`none` or `""` both fall back to
`"submissions"`, as `||` does). -/
def downloadCSV (fmt : Int → String) (subs : List SubmissionRec)
    (startDate endDate : Option Nat) (formName : Option String) : CSVResult :=
  let filtered := filteredSubmissions subs startDate endDate
  if filtered.isEmpty then .nothingToExport
  else
    let csvHeaders :=
      if hasCompoundName subs then
        "First Name" :: "Last Name" :: (dataKeys subs ++ ["Submitted"])
      else dataKeys subs ++ ["Submitted"]
    let rows := csvDataRows fmt subs startDate endDate
    let csv := String.intercalate "\n" (String.intercalate "," csvHeaders :: rows)
    let stem := match formName with
      | some n => if n = "" then "submissions" else n
      | none => "submissions"
    .file (stem ++ ".csv") csv

/-! ## Consent PDF generation -/

/-- A consent submission as `downloadConsentPDF` receives it: timestamp,
ordered field data, and the owning client's WordPress URL if any. -/
structure ConsentSubmission where
  submitted_at : Int
  submission_data : List (String × Option String)
  wordpress_url : Option String
deriving DecidableEq, Repr

/-- One drawn element of the produced document, tagged by the emitting
call site: `labelItem` is the bold field label of line 1238, `lineItem` a
single text line (header lines, the fallback of line 1250, the agreement
line of line 1255), `blockItem` the wrapped body text of line 1260,
`imageItem` the signature image of line 1246, `ruleItem` the horizontal
rule of line 1226. Each carries its page (0-based) and vertical cursor. -/
inductive PdfItem where
  | labelItem (page : Nat) (y : Int) (s : String)
  | lineItem (page : Nat) (y : Int) (s : String)
  | blockItem (page : Nat) (y : Int) (lines : List String)
  | imageItem (page : Nat) (y : Int) (dataUrl : String)
  | ruleItem (page : Nat) (y : Int)
deriving DecidableEq, Repr

/-- The produced document: the delivered file name and the drawn items. -/
structure PdfDoc where
  filename : String
  items : List PdfItem
deriving DecidableEq, Repr

/-- `needle` is a prefix of `hay` (character lists). -/
def startsWithList : List Char → List Char → Bool
  | [], _ => true
  | _ :: _, [] => false
  | a :: as, b :: bs => a == b && startsWithList as bs

/-- JS `hay.includes(needle)`: `needle` occurs contiguously in `hay`. -/
def containsSub (needle : List Char) : List Char → Bool
  | [] => startsWithList needle []
  | l@(_ :: rest) => startsWithList needle l || containsSub needle rest

/-- `getCompanyName` from Dashboard.js lines 1193–1199: the value of the
first key containing the case-insensitive substring `"company name"`, with
`"Unknown"` substituted when there is no such key or the value is falsy. -/
def getCompanyName (d : List (String × Option String)) : String :=
  match d.find? (fun e => containsSub ("company name".data) (e.1.data.map Char.toLower)) with
  | none => "Unknown"
  | some e =>
    match e.2 with
    | some v => if v = "" then "Unknown" else v
    | none => "Unknown"

/-- JS `companyName.replace(/\s+/g, '-')`: each run of whitespace becomes
a single hyphen. -/
def hyphenateAux : List Char → List Char
  | [] => []
  | c :: cs =>
    if isWs c then '-' :: hyphenateAux (cs.dropWhile isWs)
    else c :: hyphenateAux cs
termination_by l => l.length
decreasing_by
  · simp only [List.length_cons]
    exact Nat.lt_succ_of_le (List.dropWhile_sublist _).length_le
  · simp

def hyphenate (s : String) : String := String.mk (hyphenateAux s.data)

/-- JS `u.replace(/\/$/, '')`: remove one trailing slash if present. -/
def stripTrailingSlash (u : String) : String :=
  match u.data.reverse with
  | [] => u
  | c :: rest => if c = '/' then String.mk rest.reverse else u

/-- `submission.wordpress_url ? submission.wordpress_url.replace(/\/$/, '') : ''`
(Dashboard.js line 1219): empty when absent or empty, otherwise the URL
with one trailing slash removed. -/
def wpBaseOf (sub : ConsentSubmission) : String :=
  match sub.wordpress_url with
  | none => ""
  | some u => if u = "" then "" else stripTrailingSlash u

/-- The fixed signature upload path of Dashboard.js line 1242. -/
def SIG_PATH : String := "/wp-content/uploads/gravity_forms/sig/"

/-- The signature test of Dashboard.js line 1235: a value ending in
`.png` (character-level suffix test) that does not start with `http`
(character-level prefix test). -/
def isSignatureVal (strVal : String) : Bool :=
  startsWithList (".png".data.reverse) strVal.data.reverse
    && !(startsWithList ("http".data) strVal.data)

/-- The body of one field iteration after the label has been written:
the three-way branch of lines 1241–1262, producing the drawn items, the
page and the advanced cursor. `y1` is the cursor just after the label. -/
def fieldStep (fetchO : String → Option String) (split : String → List String)
    (wpBase : String) (strVal : String) (page : Nat) (y1 : Int) :
    List PdfItem × Nat × Int :=
  if isSignatureVal strVal && !(wpBase == "") then
    match fetchO (wpBase ++ SIG_PATH ++ strVal) with
    | some dataUrl =>
      if y1 + 40 > 270 then ([.imageItem (page + 1) 20 dataUrl], page + 1, 20 + 36)
      else ([.imageItem page y1 dataUrl], page, y1 + 36)
    | none => ([.lineItem page y1 "[Signature image unavailable]"], page, y1 + 8)
  else if strVal = "Agreed" then
    ([.lineItem page y1 "✓ Agreed"], page, y1 + 8)
  else
    let lines := split (if strVal = "" then "—" else strVal)
    ([.blockItem page y1 lines], page, y1 + (lines.length : Int) * 6 + 4)

/-- The field loop of `downloadConsentPDF` (Dashboard.js lines 1232–1265),
rendering the ordered entries from cursor position `(page, y)`.
`fetchO` abstracts `fetchImageAsDataURL` (lines 1201–1214, `none` on any
fetch failure); `split` abstracts `doc.splitTextToSize(·, 150)`. -/
def renderFields (fetchO : String → Option String) (split : String → List String)
    (wpBase : String) :
    List (String × Option String) → Nat → Int → List PdfItem
  | [], _, _ => []
  | (key, value) :: rest, page, y =>
    let step := fieldStep fetchO split wpBase (value.getD "") page (y + 6)
    let next : Nat × Int :=
      if step.2.2 > 270 then (step.2.1 + 1, 20) else (step.2.1, step.2.2)
    PdfItem.labelItem page y (key ++ ":") :: step.1
      ++ renderFields fetchO split wpBase rest next.1 next.2

/-- `downloadConsentPDF` from Dashboard.js lines 1216–1268: header block
at fixed coordinates on page 0, the field loop from cursor 45, and the
delivered file name. `fmt` abstracts `new Date(·).toLocaleString()`. -/
def downloadConsentPDF (fetchO : String → Option String)
    (split : String → List String) (fmt : Int → String)
    (sub : ConsentSubmission) : PdfDoc :=
  let companyName := getCompanyName sub.submission_data
  let wpBase := wpBaseOf sub
  { filename := "consent-form-" ++ hyphenate companyName ++ ".pdf"
    items :=
      PdfItem.lineItem 0 20 ("TradeCraft Client Consent Form - " ++ companyName)
        :: PdfItem.ruleItem 0 25
        :: PdfItem.lineItem 0 33 ("Submitted: " ++ fmt sub.submitted_at)
        :: renderFields fetchO split wpBase
            (sortedConsentEntries sub.submission_data) 0 45 }

/-! ## Sync-result state machine -/

/-- The external sync collaborator's outcome: a success response whose
counts may be missing, or an error message (`getAxiosErrorMessage`). -/
inductive SyncOutcome where
  | success (synced skipped : Option Nat)
  | failure (msg : String)
deriving DecidableEq, Repr

/-- The stored sync result: counts, or a plain message string. -/
inductive SyncStored where
  | counts (synced skipped : Nat)
  | errMsg (msg : String)
deriving DecidableEq, Repr

/-- How `handleSync` stores an outcome (Dashboard.js lines 326, 331):
missing counts default to 0 (`?? 0`), an error stores its message. -/
def interpretOutcome : SyncOutcome → SyncStored
  | .success s k => .counts (s.getD 0) (k.getD 0)
  | .failure m => .errMsg m

/-- The sync-relevant component state: the visible result, the scheduled
(not yet fired, not cancelled) timers as (id, fire time) pairs, the
`syncResultTimer` ref, and a fresh-id counter. -/
structure SyncState where
  syncResult : Option SyncStored
  timers : List (Nat × Int)
  timerRef : Option Nat
  nextId : Nat
deriving DecidableEq, Repr

def initialSyncState : SyncState :=
  { syncResult := none, timers := [], timerRef := none, nextId := 0 }

/-- Events of one client session: `syncStart` is the synchronous prefix of
`handleSync` (lines 320–322: clear the result, cancel the ref'd timer);
`syncFinish o t` is the resumption after the awaited call at time `t`
(lines 326/331 and the `finally` of line 334: store the outcome, arm a
fresh 5-second timer); `timerFire id t` is the runtime firing a still
scheduled timer (the `setTimeout` callback clearing the result). -/
inductive SyncEv where
  | syncStart
  | syncFinish (o : SyncOutcome) (t : Int)
  | timerFire (id : Nat) (t : Int)
deriving DecidableEq, Repr

def syncStep (s : SyncState) : SyncEv → SyncState
  | .syncStart =>
    { s with
      syncResult := none
      timers := s.timers.filter (fun tm => s.timerRef ≠ some tm.1) }
  | .syncFinish o t =>
    { syncResult := some (interpretOutcome o)
      timers := s.timers ++ [(s.nextId, t + 5000)]
      timerRef := some s.nextId
      nextId := s.nextId + 1 }
  | .timerFire id _ =>
    if (s.timers.map Prod.fst).contains id then
      { s with syncResult := none, timers := s.timers.filter (fun tm => tm.1 ≠ id) }
    else s

def runSync (tr : List SyncEv) : SyncState := tr.foldl syncStep initialSyncState

/-- Sequential-session discipline: the sync button is disabled while a
sync is in flight (Dashboard.js line 794), so starts and finishes
alternate; timers may fire at any point. Returns the in-flight flag after
the trace, or `none` for a trace the UI cannot produce. -/
def runOk : Bool → List SyncEv → Option Bool
  | b, [] => some b
  | b, e :: r =>
    match b, e with
    | false, .syncStart => runOk true r
    | true, .syncFinish _ _ => runOk false r
    | b2, .timerFire _ _ => runOk b2 r
    | _, _ => none

def seqOk (tr : List SyncEv) : Bool := (runOk false tr).isSome

/-! ## Concrete instances used in counterexamples and witnesses -/

/-- A submission timestamped 2100-01-01T00:00Z, past the filter's default
end bound. -/
def lateSub : SubmissionRec := ⟨4102444800000, []⟩

/-- 2024-03-10 as a day index (days since 1970-01-01). -/
def day20240310 : Nat := 19792

/-- A submission timestamped 2024-03-10T23:59:00Z. -/
def marchLateSub : SubmissionRec := ⟨19792 * 86400000 + 86340000, []⟩

/-- A submission timestamped 2024-03-11T00:00:01Z. -/
def marchNextSub : SubmissionRec := ⟨19793 * 86400000 + 1000, []⟩

/-- A consent submission with a signature field and no client URL. -/
def sigNoUrlSub : ConsentSubmission := ⟨0, [("Signature", some "sig.png")], none⟩

/-- A consent submission with a signature field and a client URL. -/
def sigUrlSub : ConsentSubmission :=
  ⟨0, [("Signature", some "sig.png")], some "http://w.com"⟩

/-- Twelve one-line canonical fields followed by a signature field: enough
content to drive the cursor to 237 before the signature is processed. -/
def splitBlockSub : ConsentSubmission :=
  { submitted_at := 0
    wordpress_url := some "http://w.com"
    submission_data :=
      (CONSENT_FIELD_ORDER.take 12).map (fun k => (k, some "x"))
        ++ [("Signature", some "sig.png")] }

/-- Two sequential sync sessions: a success then a failure. -/
def twoSyncTrace : List SyncEv :=
  [.syncStart, .syncFinish (.success (some 3) none) 100,
   .syncStart, .syncFinish (.failure "boom") 200]

/-! ## Theorems: tokenizer equivalence (NameSplitter) -/

theorem splitChar_nonws (w : List Char) (h : ∀ c ∈ w, isWs c = false) :
    splitChar w = [w] := by
  induction w with
  | nil => rfl
  | cons c cs ih =>
    have hc : isWs c = false := h c (List.mem_cons_self c cs)
    have ih' := ih (fun d hd => h d (List.mem_cons_of_mem c hd))
    simp [splitChar, hc, ih']

theorem splitChar_append_nonws (w : List Char) (h : ∀ c ∈ w, isWs c = false)
    (r t : List Char) (ts : List (List Char)) (hr : splitChar r = t :: ts) :
    splitChar (w ++ r) = (w ++ t) :: ts := by
  induction w with
  | nil => simpa using hr
  | cons c cs ih =>
    have hc : isWs c = false := h c (List.mem_cons_self c cs)
    have ih' := ih (fun d hd => h d (List.mem_cons_of_mem c hd))
    simp [splitChar, hc, ih']

theorem splitChar_ne_nil (l : List Char) : splitChar l ≠ [] := by
  cases l with
  | nil => simp [splitChar]
  | cons c cs =>
    simp only [splitChar]
    by_cases hc : isWs c
    · simp [hc]
    · simp only [hc]
      rcases hl : splitChar cs with _ | ⟨t, ts⟩ <;> simp

theorem tokensAux_eq (l : List Char) :
    ∀ acc : List Char, (∀ c ∈ acc, isWs c = false) →
      tokensAux l acc = tokensSpec (acc.reverse ++ l) := by
  induction l with
  | nil =>
    intro acc hacc
    cases acc with
    | nil => rfl
    | cons a as =>
      have hrev : ∀ c ∈ (a :: as).reverse, isWs c = false := by
        intro c hc
        exact hacc c (List.mem_reverse.mp hc)
      have hsc : splitChar (as.reverse ++ [a]) = [as.reverse ++ [a]] := by
        simpa using splitChar_nonws _ hrev
      have hne : (as.reverse ++ [a]).isEmpty = false := by
        simp [List.isEmpty_iff]
      simp [tokensAux, tokensSpec, List.append_nil, hsc, hne]
  | cons c cs ih =>
    intro acc hacc
    by_cases hc : isWs c
    · rcases hsc : splitChar cs with _ | ⟨t, ts⟩
      · exact absurd hsc (splitChar_ne_nil cs)
      have hccs : splitChar (c :: cs) = [] :: t :: ts := by
        simp [splitChar, hc, hsc]
      have hrev : ∀ d ∈ acc.reverse, isWs d = false := by
        intro d hd
        exact hacc d (List.mem_reverse.mp hd)
      have happ := splitChar_append_nonws acc.reverse hrev (c :: cs) [] (t :: ts) hccs
      have hnil := ih [] (by intro d hd; simp at hd)
      simp only [List.reverse_nil, List.nil_append] at hnil
      cases acc with
      | nil =>
        simp only [tokensAux, hc, List.isEmpty_nil, if_true, hnil]
        simp only [List.reverse_nil, List.nil_append] at happ ⊢
        simp [tokensSpec, happ, hsc]
      | cons a as =>
        simp only [tokensAux, hc, List.isEmpty_cons, if_false, hnil]
        have happ' : splitChar (as.reverse ++ a :: c :: cs)
            = (as.reverse ++ [a]) :: t :: ts := by
          simpa using happ
        have hne : (as.reverse ++ [a]).isEmpty = false := by
          simp [List.isEmpty_iff]
        simp [tokensSpec, happ', hne, hsc]
    · have hcF : isWs c = false := by simpa using hc
      have ih' := ih (c :: acc) (by
        intro d hd
        rcases List.mem_cons.mp hd with h1 | h2
        · simpa [h1] using hcF
        · exact hacc d h2)
      simp only [tokensAux, hcF, Bool.false_eq_true, if_false] at ih' ⊢
      rw [ih', List.reverse_cons, List.append_assoc, List.singleton_append]

theorem tokens_eq (l : List Char) : tokensAux l [] = tokensSpec l := by
  have h := tokensAux_eq l [] (by intro c hc; simp at hc)
  simpa using h

theorem splitName_eq_spec (s : String) : splitName s = nameSplitterSpec s := by
  unfold splitName nameSplitterSpec
  by_cases he : (trimChars s.data).isEmpty
  · have hnil : trimChars s.data = [] := List.isEmpty_iff.mp he
    simp [hnil, tokensSpec, splitChar]
  · simp only [he, Bool.false_eq_true, if_false, tokens_eq]

/-- C9: for every input string, the name splitter trims whitespace,
returns two empty parts on an empty result, the single token and an empty
last name on one token, and otherwise the first token plus the remaining
tokens rejoined with single spaces; it is a pure total function, and it
agrees with the specification's examples. -/
theorem C9_name_splitter :
    (∀ s : String, splitName s = nameSplitterSpec s) ∧
    splitName "Jane" = ("Jane", "") ∧
    splitName "Jane Q Public" = ("Jane", "Q Public") ∧
    splitName "" = ("", "") :=
  ⟨splitName_eq_spec, by decide, by decide, by decide⟩

/-! ## Theorems: schema inference -/

theorem foldl_flatMap_keys (f : List String → String → List String) :
    ∀ (subs : List SubmissionRec) (acc : List String),
      subs.foldl (fun acc sub => (keysOf sub).foldl f acc) acc
        = (subs.flatMap keysOf).foldl f acc := by
  intro subs
  induction subs with
  | nil => intro acc; rfl
  | cons s rest ih =>
    intro acc
    simp only [List.foldl_cons, List.flatMap_cons, List.foldl_append]
    exact ih _

theorem foldl_dataKeysStep (hcn : Bool) :
    ∀ (l acc : List String),
      l.foldl (dataKeysStep hcn) acc
        = acc ++ firstSeen (((l.filter (fun k => !(hcn && k == "Name"))).filter
            (fun k => !acc.contains k))) := by
  intro l
  induction l with
  | nil => intro acc; simp [firstSeen]
  | cons k l ih =>
    intro acc
    simp only [List.foldl_cons, List.filter_cons]
    by_cases hname : (hcn && k == "Name") = true
    · simp only [dataKeysStep, hname, if_true, Bool.not_true, Bool.false_eq_true,
        if_false]
      exact ih acc
    · have hname' : (hcn && k == "Name") = false := by
        simpa using hname
      simp only [dataKeysStep, hname', Bool.false_eq_true, if_false,
        Bool.not_false, if_true, List.filter_cons]
      by_cases hmem : acc.contains k = true
      · simp only [hmem, Bool.not_true, Bool.false_eq_true, if_false]
        exact ih acc
      · have hmem' : acc.contains k = false := by simpa using hmem
        simp only [hmem', Bool.false_eq_true, if_false, Bool.not_false, if_true]
        rw [ih (acc ++ [k])]
        have hfeq : ∀ m : List String,
            m.filter (fun y => !(acc ++ [k]).contains y)
              = (m.filter (fun y => !acc.contains y)).filter
                  (fun y => y ≠ k) := by
          intro m
          rw [List.filter_filter]
          apply List.filter_congr
          intro y _
          by_cases hy : y ∈ acc <;> by_cases hyk : y = k <;> simp [hy, hyk]
        rw [hfeq]
        simp only [firstSeen, List.append_assoc, List.singleton_append]

theorem dataKeys_eq_firstSeen (subs : List SubmissionRec) :
    dataKeys subs = firstSeen ((subs.flatMap keysOf).filter
      (fun k => !(hasCompoundName subs && k == "Name"))) := by
  unfold dataKeys
  by_cases h : subs.isEmpty
  · have : subs = [] := List.isEmpty_iff.mp h
    subst this
    simp [firstSeen]
  · simp only [h, Bool.false_eq_true, if_false]
    rw [foldl_flatMap_keys, foldl_dataKeysStep]
    simp

theorem firstSeen_subset : ∀ l : List String, ∀ x ∈ firstSeen l, x ∈ l := by
  intro l
  induction l using firstSeen.induct with
  | case1 => intro x hx; simp [firstSeen] at hx
  | case2 y ys ih =>
    intro x hx
    simp only [firstSeen, List.mem_cons] at hx
    rcases hx with h1 | h2
    · simp [h1]
    · have := ih x h2
      have := List.mem_of_mem_filter this
      simp [this]

theorem firstSeen_nodup : ∀ l : List String, (firstSeen l).Nodup := by
  intro l
  induction l using firstSeen.induct with
  | case1 => simp [firstSeen]
  | case2 y ys ih =>
    simp only [firstSeen, List.nodup_cons]
    refine ⟨?_, ih⟩
    intro hy
    have := firstSeen_subset _ _ hy
    simp [List.mem_filter] at this

/-- C4: `hasCompoundName` holds exactly when some submission's data has
the literal key `"Name"`; `dataKeys` is the first-seen-order list of
distinct keys (submissions in input order, keys in stored order) with
`"Name"` skipped entirely in the compound case, and it contains no
duplicates. Determinism on equal input is immediate because `dataKeys`
is a function of the submission list alone. -/
theorem C4_schema_inference : ∀ subs : List SubmissionRec,
    (hasCompoundName subs = true ↔ ∃ sub ∈ subs, "Name" ∈ keysOf sub) ∧
    dataKeys subs = firstSeen ((subs.flatMap keysOf).filter
      (fun k => !(hasCompoundName subs && k == "Name"))) ∧
    (dataKeys subs).Nodup ∧
    (hasCompoundName subs = true → "Name" ∉ dataKeys subs) := by
  intro subs
  refine ⟨?_, dataKeys_eq_firstSeen subs, ?_, ?_⟩
  · simp [hasCompoundName, List.any_eq_true]
  · rw [dataKeys_eq_firstSeen]
    exact firstSeen_nodup _
  · intro hcn hmem
    rw [dataKeys_eq_firstSeen] at hmem
    have := firstSeen_subset _ _ hmem
    rw [List.mem_filter] at this
    simp [hcn] at this

/-! ## Theorems: consent-field ordering -/

theorem insertByPos_perm (e : String × Option String) :
    ∀ l, (insertByPos e l).Perm (e :: l) := by
  intro l
  induction l with
  | nil => exact List.Perm.refl _
  | cons x xs ih =>
    simp only [insertByPos]
    by_cases h : fieldPos e.1 ≤ fieldPos x.1
    · simp [h]
    · simp only [h, if_false]
      exact (ih.cons x).trans (List.Perm.swap e x xs)

theorem mem_insertByPos {y e : String × Option String} {l} :
    y ∈ insertByPos e l ↔ y = e ∨ y ∈ l := by
  constructor
  · intro hy
    have := (insertByPos_perm e l).mem_iff.mp hy
    simpa using this
  · intro hy
    apply (insertByPos_perm e l).mem_iff.mpr
    simpa using hy

theorem sortedConsentEntries_perm (d : List (String × Option String)) :
    (sortedConsentEntries d).Perm d := by
  induction d with
  | nil => exact List.Perm.refl _
  | cons x xs ih =>
    simp only [sortedConsentEntries]
    exact (insertByPos_perm x (sortedConsentEntries xs)).trans (ih.cons x)

theorem pairwise_insertByPos (e : String × Option String) :
    ∀ l, List.Pairwise (fun a b => fieldPos a.1 ≤ fieldPos b.1) l →
      List.Pairwise (fun a b => fieldPos a.1 ≤ fieldPos b.1) (insertByPos e l) := by
  intro l
  induction l with
  | nil => intro _; simp [insertByPos]
  | cons x xs ih =>
    intro h
    rcases List.pairwise_cons.mp h with ⟨hx, hxs⟩
    simp only [insertByPos]
    by_cases he : fieldPos e.1 ≤ fieldPos x.1
    · simp only [he, if_true]
      refine List.pairwise_cons.mpr ⟨?_, h⟩
      intro y hy
      rcases List.mem_cons.mp hy with h1 | h2
      · subst h1; exact he
      · exact le_trans he (hx y h2)
    · simp only [he, if_false]
      refine List.pairwise_cons.mpr ⟨?_, ih hxs⟩
      intro y hy
      rcases mem_insertByPos.mp hy with h1 | h2
      · subst h1; exact le_of_lt (lt_of_not_le he)
      · exact hx y h2

theorem sortedConsentEntries_pairwise (d : List (String × Option String)) :
    List.Pairwise (fun a b => fieldPos a.1 ≤ fieldPos b.1) (sortedConsentEntries d) := by
  induction d with
  | nil => simp [sortedConsentEntries]
  | cons x xs ih =>
    simpa only [sortedConsentEntries] using pairwise_insertByPos x _ ih

theorem filter_insertByPos (e : String × Option String) (p : Nat) :
    ∀ l, (insertByPos e l).filter (fun x => fieldPos x.1 == p)
      = if (fieldPos e.1 == p) = true
        then e :: l.filter (fun x => fieldPos x.1 == p)
        else l.filter (fun x => fieldPos x.1 == p) := by
  intro l
  induction l with
  | nil =>
    by_cases hp : (fieldPos e.1 == p) = true
    · simp only [insertByPos, List.filter_cons, hp, if_true]
    · have hp' : (fieldPos e.1 == p) = false := by simpa using hp
      simp only [insertByPos, List.filter_cons, hp', Bool.false_eq_true, if_false]
  | cons x xs ih =>
    simp only [insertByPos]
    by_cases he : fieldPos e.1 ≤ fieldPos x.1
    · simp only [he, if_true, List.filter_cons]
    · simp only [he, if_false, List.filter_cons, ih]
      by_cases hp : (fieldPos e.1 == p) = true
      · have hep : fieldPos e.1 = p := by simpa using hp
        have hlt : fieldPos x.1 < fieldPos e.1 := lt_of_not_le he
        have hxp : (fieldPos x.1 == p) = false := by
          simp only [beq_eq_false_iff_ne, ne_eq]
          omega
        simp only [hp, if_true, hxp, Bool.false_eq_true, if_false]
      · have hp' : (fieldPos e.1 == p) = false := by simpa using hp
        simp only [hp', Bool.false_eq_true, if_false]

theorem sortedConsentEntries_filter (d : List (String × Option String)) (p : Nat) :
    (sortedConsentEntries d).filter (fun e => fieldPos e.1 == p)
      = d.filter (fun e => fieldPos e.1 == p) := by
  induction d with
  | nil => rfl
  | cons x xs ih =>
    simp only [sortedConsentEntries, filter_insertByPos, ih, List.filter_cons]

theorem fieldPos_of_not_mem {k : String} (h : k ∉ CONSENT_FIELD_ORDER) :
    fieldPos k = 9999 := by
  simp [fieldPos, h]

theorem fieldPos_of_mem {k : String} (h : k ∈ CONSENT_FIELD_ORDER) :
    fieldPos k = CONSENT_FIELD_ORDER.indexOf k ∧ fieldPos k < 25 := by
  have hlen : CONSENT_FIELD_ORDER.length = 25 := by rfl
  have hidx : CONSENT_FIELD_ORDER.indexOf k < 25 := by
    rw [← hlen]
    exact List.indexOf_lt_length.mpr h
  have h1 : fieldPos k = CONSENT_FIELD_ORDER.indexOf k := by
    simp [fieldPos, h]
  exact ⟨h1, by rw [h1]; exact hidx⟩

/-- C5: the consent-field ordering is a permutation of the input entries,
sorted by canonical position; every canonical key precedes every unknown
key; canonical keys are ordered by their index in the 25-entry canonical
list; and entries of equal position (in particular all unknown keys) keep
their original relative order. -/
theorem C5_consent_field_order : ∀ d : List (String × Option String),
    CONSENT_FIELD_ORDER.length = 25 ∧
    (sortedConsentEntries d).Perm d ∧
    List.Pairwise (fun a b => fieldPos a.1 ≤ fieldPos b.1) (sortedConsentEntries d) ∧
    List.Pairwise (fun a b => b.1 ∈ CONSENT_FIELD_ORDER → a.1 ∈ CONSENT_FIELD_ORDER)
      (sortedConsentEntries d) ∧
    List.Pairwise (fun a b => a.1 ∈ CONSENT_FIELD_ORDER → b.1 ∈ CONSENT_FIELD_ORDER →
      CONSENT_FIELD_ORDER.indexOf a.1 ≤ CONSENT_FIELD_ORDER.indexOf b.1)
      (sortedConsentEntries d) ∧
    (∀ p, (sortedConsentEntries d).filter (fun e => fieldPos e.1 == p)
      = d.filter (fun e => fieldPos e.1 == p)) := by
  intro d
  refine ⟨rfl, sortedConsentEntries_perm d, sortedConsentEntries_pairwise d,
    ?_, ?_, sortedConsentEntries_filter d⟩
  · refine (sortedConsentEntries_pairwise d).imp ?_
    intro a b hab hb
    by_contra ha
    have h1 := fieldPos_of_not_mem ha
    have h2 := (fieldPos_of_mem hb).2
    omega
  · refine (sortedConsentEntries_pairwise d).imp ?_
    intro a b hab ha hb
    have h1 := (fieldPos_of_mem ha).1
    have h2 := (fieldPos_of_mem hb).1
    omega

/-! ## Theorems: date-range filter -/

/-- C2 counterexample: with only a start date given, the claim keeps a
submission timestamped 2100-01-01T00:00Z (absent end bound claimed to be
unbounded), but the code's filter drops it: the absent end bound actually
defaults to end-of-day 2099-12-31. -/
theorem C2_counterexample :
    filteredSubmissions [lateSub] (some 0) none = [] ∧
    dateFilterClaim [lateSub] (some 0) none = [lateSub] ∧
    filteredSubmissions [lateSub] (some 0) none
      ≠ dateFilterClaim [lateSub] (some 0) none := by
  refine ⟨by decide, by decide, ?_⟩
  intro h
  rw [show filteredSubmissions [lateSub] (some 0) none = [] from by decide,
    show dateFilterClaim [lateSub] (some 0) none = [lateSub] from by decide] at h
  exact absurd h (by decide)

/-- C2 amended: the filter keeps exactly the submissions between
start-of-day of the start date and 23:59:59.999 of the end date, but an
absent start bound defaults to 1970-01-01T00:00Z and an absent end bound
to end-of-day 2099-12-31 rather than being unbounded; for submissions
timestamped within those defaults the claimed behavior holds verbatim. -/
theorem C2_date_filter_amended :
    ∀ (subs : List SubmissionRec) (sd ed : Option Nat),
      (∀ sub ∈ subs, 0 ≤ sub.submitted_at ∧ sub.submitted_at ≤ 4102444799999) →
      filteredSubmissions subs sd ed = dateFilterClaim subs sd ed := by
  intro subs sd ed hb
  match sd, ed with
  | none, none =>
    simp only [filteredSubmissions, dateFilterClaim, and_self, if_true]
    exact (List.filter_eq_self.mpr (fun a _ => by simp)).symm
  | some d, none =>
    rw [filteredSubmissions, if_neg (by simp)]
    rw [dateFilterClaim]
    apply List.filter_congr
    intro sub hsub
    have h := hb sub hsub
    simp only [MAX_DEFAULT_MS, Bool.and_true, decide_eq_true_eq]
    rw [decide_eq_decide]
    constructor
    · intro hh; exact hh.1
    · intro hh; exact ⟨hh, by omega⟩
  | none, some d =>
    rw [filteredSubmissions, if_neg (by simp)]
    rw [dateFilterClaim]
    apply List.filter_congr
    intro sub hsub
    have h := hb sub hsub
    simp only [Bool.true_and, decide_eq_true_eq]
    rw [decide_eq_decide]
    constructor
    · intro hh; exact hh.2
    · intro hh; exact ⟨by omega, hh⟩
  | some d, some e =>
    rw [filteredSubmissions, if_neg (by simp)]
    rw [dateFilterClaim]
    apply List.filter_congr
    intro sub hsub
    rw [Bool.eq_iff_iff]
    simp only [decide_eq_true_eq, Bool.and_eq_true]

/-- C2 witness: the specification's own example, entirely inside the
defaulted range: with start = end = 2024-03-10 the filter agrees with the
claimed semantics, keeping the 23:59:00 submission and dropping the
00:00:01 one of the next day. -/
theorem C2_date_filter_amended_witness :
    (∀ sub ∈ [marchLateSub, marchNextSub],
        0 ≤ sub.submitted_at ∧ sub.submitted_at ≤ 4102444799999) ∧
    filteredSubmissions [marchLateSub, marchNextSub]
        (some day20240310) (some day20240310)
      = dateFilterClaim [marchLateSub, marchNextSub]
          (some day20240310) (some day20240310) ∧
    filteredSubmissions [marchLateSub, marchNextSub]
        (some day20240310) (some day20240310) = [marchLateSub] :=
  ⟨by decide,
   C2_date_filter_amended [marchLateSub, marchNextSub]
     (some day20240310) (some day20240310) (by decide),
   by decide⟩

/-! ## Theorems: CSV export -/

theorem unescape_escape_list :
    ∀ l : List Char,
      unescapeAux (l.flatMap (fun c => if c = '"' then ['"', '"'] else [c])) = l := by
  intro l
  induction l with
  | nil => rfl
  | cons c cs ih =>
    simp only [List.flatMap_cons]
    by_cases hc : c = '"'
    · subst hc
      simp only [if_true]
      rw [List.cons_append, List.cons_append, List.nil_append]
      rw [unescapeAux]
      · simp [ih]
    · simp only [hc, if_false, List.singleton_append]
      rcases hf : cs.flatMap (fun c => if c = '"' then ['"', '"'] else [c])
          with _ | ⟨d, ds⟩
      · rw [hf] at ih
        simp only [unescapeAux]
        simpa using ih.symm
      · rw [hf] at ih
        rw [unescapeAux, if_neg (by simp [hc]), ih]

/-- C4 witness: on a concrete submission pair with a `"Name"` key,
`hasCompoundName` holds and `"Name"` is excluded from `dataKeys`. -/
theorem C4_schema_inference_witness :
    hasCompoundName
        [⟨0, [("Name", some "a"), ("b", some "c")]⟩, ⟨1, [("b", none), ("d", some "e")]⟩]
      = true ∧
    "Name" ∉ dataKeys
        [⟨0, [("Name", some "a"), ("b", some "c")]⟩, ⟨1, [("b", none), ("d", some "e")]⟩] :=
  ⟨by decide,
   (C4_schema_inference
       [⟨0, [("Name", some "a"), ("b", some "c")]⟩, ⟨1, [("b", none), ("d", some "e")]⟩]).2.2.2
     (by decide)⟩

/-- C5 witness: on a concrete entry list, two unknown keys keep their
submission order after sorting, computed through the claim theorem's
stability equation. -/
theorem C5_consent_field_order_witness :
    (sortedConsentEntries [("zz", some "1"), ("Signature", some "s"), ("aa", some "2")]).filter
        (fun e => fieldPos e.1 == 9999)
      = [("zz", some "1"), ("aa", some "2")] := by
  rw [(C5_consent_field_order
      [("zz", some "1"), ("Signature", some "s"), ("aa", some "2")]).2.2.2.2.2 9999]
  decide

/-- C6: every CSV data-row is the comma-join of its values each wrapped
unconditionally in double quotes with inner quotes doubled; the quoting
round-trips (collapsing doubled quotes restores the value); and the
specification's example emits exactly as claimed. -/
theorem C6_csv_quoting :
    (∀ (fmt : Int → String) (subs : List SubmissionRec) (sd ed : Option Nat),
      ∀ row ∈ csvDataRows fmt subs sd ed,
        ∃ sub ∈ filteredSubmissions subs sd ed,
          row = String.intercalate ","
            ((rowValues fmt (hasCompoundName subs) (dataKeys subs) sub).map
              (fun v => "\"" ++ escapeQuotes v ++ "\""))) ∧
    (∀ v : String, unescapeQuotes (escapeQuotes v) = v) ∧
    csvCell "He said \"hi\"" = "\"He said \"\"hi\"\"\"" := by
  refine ⟨?_, ?_, by decide⟩
  · intro fmt subs sd ed row hrow
    rw [csvDataRows] at hrow
    rcases List.mem_map.mp hrow with ⟨sub, hsub, heq⟩
    exact ⟨sub, hsub, heq.symm⟩
  · intro v
    show String.mk (unescapeAux (String.mk (v.data.flatMap _)).data) = v
    rw [show ∀ l : List Char, (String.mk l).data = l from fun _ => rfl]
    rw [unescape_escape_list]

/-- C6 witness: the row-shape property applied to a one-submission list,
together with the concrete quoted cell it produces. -/
theorem C6_csv_quoting_witness :
    (∃ sub ∈ filteredSubmissions [⟨5, [("b", some "x")]⟩] none none,
      String.intercalate ","
          ((rowValues (fun _ => "TS") (hasCompoundName [⟨5, [("b", some "x")]⟩])
              (dataKeys [⟨5, [("b", some "x")]⟩]) sub).map
            (fun v => "\"" ++ escapeQuotes v ++ "\""))
        = String.intercalate ","
          ((rowValues (fun _ => "TS") (hasCompoundName [⟨5, [("b", some "x")]⟩])
              (dataKeys [⟨5, [("b", some "x")]⟩]) sub).map
            (fun v => "\"" ++ escapeQuotes v ++ "\""))) ∧
    csvCell "He said \"hi\"" = "\"He said \"\"hi\"\"\"" := by
  refine ⟨?_, C6_csv_quoting.2.2⟩
  have h := C6_csv_quoting.1 (fun _ => "TS") [⟨5, [("b", some "x")]⟩] none none
  rcases h (String.intercalate ","
      ((rowValues (fun _ => "TS") (hasCompoundName [⟨5, [("b", some "x")]⟩])
          (dataKeys [⟨5, [("b", some "x")]⟩]) ⟨5, [("b", some "x")]⟩).map csvCell))
      (by simp [csvDataRows, filteredSubmissions]) with ⟨sub, hsub, heq⟩
  exact ⟨sub, hsub, heq.symm ▸ rfl⟩

/-- C7: the CSV exporter signals "nothing to export" exactly when the
date-filtered set is empty; its file-producing branch runs only on a
non-empty filtered set. -/
theorem C7_empty_export :
    ∀ (fmt : Int → String) (subs : List SubmissionRec) (sd ed : Option Nat)
      (fn : Option String),
      downloadCSV fmt subs sd ed fn = CSVResult.nothingToExport
        ↔ filteredSubmissions subs sd ed = [] := by
  intro fmt subs sd ed fn
  rw [downloadCSV.eq_def]
  by_cases h : (filteredSubmissions subs sd ed).isEmpty
  · simp [h, List.isEmpty_iff.mp h]
  · have h2 : filteredSubmissions subs sd ed ≠ [] := by
      simpa [List.isEmpty_iff] using h
    simp [h, h2]

/-- C7 witness: on an empty submission list the exporter emits no file and
returns the no-op signal. -/
theorem C7_empty_export_witness :
    downloadCSV (fun _ => "") [] none none none = CSVResult.nothingToExport :=
  (C7_empty_export (fun _ => "") [] none none none).mpr rfl

/-! ## Theorems: consent PDF generation -/

theorem fieldStep_cases (fetchO : String → Option String)
    (split : String → List String) (wpBase strVal : String)
    (page : Nat) (y1 : Int) :
    (∃ u, fieldStep fetchO split wpBase strVal page y1
        = ([PdfItem.imageItem (page + 1) 20 u], page + 1, (56 : Int))) ∨
    (∃ u, ¬ y1 + 40 > 270 ∧ fieldStep fetchO split wpBase strVal page y1
        = ([PdfItem.imageItem page y1 u], page, y1 + 36)) ∨
    fieldStep fetchO split wpBase strVal page y1
        = ([PdfItem.lineItem page y1 "[Signature image unavailable]"], page, y1 + 8) ∨
    fieldStep fetchO split wpBase strVal page y1
        = ([PdfItem.lineItem page y1 "✓ Agreed"], page, y1 + 8) ∨
    (∃ ls : List String, fieldStep fetchO split wpBase strVal page y1
        = ([PdfItem.blockItem page y1 ls], page, y1 + (ls.length : Int) * 6 + 4)) := by
  by_cases h1 : (isSignatureVal strVal && !(wpBase == "")) = true
  · rcases hf : fetchO (wpBase ++ SIG_PATH ++ strVal) with _ | u
    · right; right; left
      rw [fieldStep, if_pos h1, hf]
    · by_cases h2 : y1 + 40 > 270
      · left
        refine ⟨u, ?_⟩
        rw [fieldStep, if_pos h1, hf]
        simp [h2]
      · right; left
        refine ⟨u, h2, ?_⟩
        rw [fieldStep, if_pos h1, hf]
        simp [h2]
  · by_cases h3 : strVal = "Agreed"
    · right; right; right; left
      rw [fieldStep, if_neg h1, if_pos h3]
    · right; right; right; right
      refine ⟨split (if strVal = "" then "—" else strVal), ?_⟩
      rw [fieldStep, if_neg h1, if_neg h3]

theorem fieldStep_snd_lower (fetchO : String → Option String)
    (split : String → List String) (wpBase strVal : String)
    (page : Nat) (y1 : Int) (h : 26 ≤ y1) :
    20 ≤ (fieldStep fetchO split wpBase strVal page y1).2.2 := by
  rcases fieldStep_cases fetchO split wpBase strVal page y1 with
    ⟨u, he⟩ | ⟨u, _, he⟩ | he | he | ⟨ls, he⟩ <;> rw [he] <;> simp <;> omega

theorem fieldStep_sig_none (fetchO : String → Option String)
    (split : String → List String) (wpBase strVal : String)
    (page : Nat) (y1 : Int)
    (h1 : isSignatureVal strVal = true) (h2 : wpBase ≠ "")
    (hf : fetchO (wpBase ++ SIG_PATH ++ strVal) = none) :
    fieldStep fetchO split wpBase strVal page y1
      = ([PdfItem.lineItem page y1 "[Signature image unavailable]"], page, y1 + 8) := by
  have hbe : (wpBase == "") = false := beq_eq_false_iff_ne.mpr h2
  rw [fieldStep, if_pos (by rw [h1, hbe]; rfl), hf]

theorem fieldStep_sig_nobase (fetchO : String → Option String)
    (split : String → List String) (strVal : String)
    (page : Nat) (y1 : Int) (h1 : isSignatureVal strVal = true) :
    fieldStep fetchO split "" strVal page y1
      = ([PdfItem.blockItem page y1 (split strVal)], page,
          y1 + ((split strVal).length : Int) * 6 + 4) := by
  have hA : strVal ≠ "Agreed" := by
    intro he
    rw [he] at h1
    exact absurd h1 (by decide)
  have hE : strVal ≠ "" := by
    intro he
    rw [he] at h1
    exact absurd h1 (by decide)
  rw [fieldStep, if_neg (by simp), if_neg hA, if_neg hE]

theorem renderFields_bounds (fetchO : String → Option String)
    (split : String → List String) (wpBase : String) :
    ∀ (entries : List (String × Option String)) (page : Nat) (y : Int),
      20 ≤ y → y ≤ 270 →
      ∀ it ∈ renderFields fetchO split wpBase entries page y,
        (∀ p q s, it = PdfItem.labelItem p q s → 20 ≤ q ∧ q ≤ 270) ∧
        (∀ p q u, it = PdfItem.imageItem p q u → 20 ≤ q ∧ q + 40 ≤ 270) := by
  intro entries
  induction entries with
  | nil => intro page y _ _ it hit; simp [renderFields] at hit
  | cons e rest ih =>
    intro page y hy1 hy2 it hit
    rcases e with ⟨key, value⟩
    rw [renderFields] at hit
    rcases List.mem_cons.mp hit with hlab | hit2
    · subst hlab
      constructor
      · intro p q s heq
        injection heq with _ h2 _
        omega
      · intro p q u heq
        exact absurd heq (by simp)
    rcases List.mem_append.mp hit2 with hstep | hrest
    · rcases fieldStep_cases fetchO split wpBase (value.getD "") page (y + 6) with
        ⟨u, he⟩ | ⟨u, hlt, he⟩ | he | he | ⟨ls, he⟩ <;> rw [he] at hstep <;>
        simp only [List.mem_singleton] at hstep <;> subst hstep
      · exact ⟨fun p q s heq => absurd heq (by simp),
          fun p q u heq => by injection heq with _ h2 _; omega⟩
      · refine ⟨fun p q s heq => absurd heq (by simp),
          fun p q u heq => ?_⟩
        injection heq with _ h2 _
        omega
      · exact ⟨fun p q s heq => absurd heq (by simp),
          fun p q u heq => absurd heq (by simp)⟩
      · exact ⟨fun p q s heq => absurd heq (by simp),
          fun p q u heq => absurd heq (by simp)⟩
      · exact ⟨fun p q s heq => absurd heq (by simp),
          fun p q u heq => absurd heq (by simp)⟩
    · have hlow : 20 ≤ (fieldStep fetchO split wpBase (value.getD "") page (y + 6)).2.2 :=
        fieldStep_snd_lower fetchO split wpBase _ page (y + 6) (by omega)
      by_cases hov : (fieldStep fetchO split wpBase (value.getD "") page (y + 6)).2.2 > 270
      · rw [if_pos hov] at hrest
        exact ih _ 20 (by omega) (by omega) it hrest
      · rw [if_neg hov] at hrest
        exact ih _ _ hlow (by omega) it hrest

theorem renderFields_mem (fetchO : String → Option String)
    (split : String → List String) (wpBase : String) :
    ∀ (entries : List (String × Option String)) (page : Nat) (y : Int)
      (key : String) (value : Option String), (key, value) ∈ entries →
      (∃ p q, PdfItem.labelItem p q (key ++ ":")
        ∈ renderFields fetchO split wpBase entries page y) ∧
      (isSignatureVal (value.getD "") = true → wpBase ≠ "" →
        fetchO (wpBase ++ SIG_PATH ++ value.getD "") = none →
        ∃ p q, PdfItem.lineItem p q "[Signature image unavailable]"
          ∈ renderFields fetchO split wpBase entries page y) ∧
      (isSignatureVal (value.getD "") = true → wpBase = "" →
        ∃ p q, PdfItem.blockItem p q (split (value.getD ""))
          ∈ renderFields fetchO split wpBase entries page y) := by
  intro entries
  induction entries with
  | nil =>
    intro page y key value hmem
    exact absurd hmem (List.not_mem_nil _)
  | cons e rest ih =>
    intro page y key value hmem
    rcases e with ⟨k0, v0⟩
    rcases List.mem_cons.mp hmem with heq | htail
    · injection heq with h1 h2
      subst h1
      subst h2
      refine ⟨⟨page, y, ?_⟩, ?_, ?_⟩
      · rw [renderFields]
        exact List.mem_cons_self _ _
      · intro hsig hwp hfetch
        have hstep := fieldStep_sig_none fetchO split wpBase (value.getD "")
          page (y + 6) hsig hwp hfetch
        refine ⟨page, y + 6, ?_⟩
        rw [renderFields]
        apply List.mem_cons_of_mem
        apply List.mem_append_left
        rw [hstep]
        simp
      · intro hsig hwp
        subst hwp
        have hstep := fieldStep_sig_nobase fetchO split (value.getD "")
          page (y + 6) hsig
        refine ⟨page, y + 6, ?_⟩
        rw [renderFields]
        apply List.mem_cons_of_mem
        apply List.mem_append_left
        rw [hstep]
        simp
    · have hr := ih
        (if (fieldStep fetchO split wpBase (v0.getD "") page (y + 6)).2.2 > 270
          then ((fieldStep fetchO split wpBase (v0.getD "") page (y + 6)).2.1 + 1, (20 : Int))
          else ((fieldStep fetchO split wpBase (v0.getD "") page (y + 6)).2.1,
            (fieldStep fetchO split wpBase (v0.getD "") page (y + 6)).2.2)).1
        (if (fieldStep fetchO split wpBase (v0.getD "") page (y + 6)).2.2 > 270
          then ((fieldStep fetchO split wpBase (v0.getD "") page (y + 6)).2.1 + 1, (20 : Int))
          else ((fieldStep fetchO split wpBase (v0.getD "") page (y + 6)).2.1,
            (fieldStep fetchO split wpBase (v0.getD "") page (y + 6)).2.2)).2
        key value htail
      refine ⟨?_, ?_, ?_⟩
      · rcases hr.1 with ⟨p, q, hin⟩
        refine ⟨p, q, ?_⟩
        rw [renderFields]
        exact List.mem_cons_of_mem _ (List.mem_append_right _ hin)
      · intro hsig hwp hfetch
        rcases hr.2.1 hsig hwp hfetch with ⟨p, q, hin⟩
        refine ⟨p, q, ?_⟩
        rw [renderFields]
        exact List.mem_cons_of_mem _ (List.mem_append_right _ hin)
      · intro hsig hwp
        rcases hr.2.2 hsig hwp with ⟨p, q, hin⟩
        refine ⟨p, q, ?_⟩
        rw [renderFields]
        exact List.mem_cons_of_mem _ (List.mem_append_right _ hin)

theorem downloadConsentPDF_items (fetchO : String → Option String)
    (split : String → List String) (fmt : Int → String)
    (sub : ConsentSubmission) :
    (downloadConsentPDF fetchO split fmt sub).items
      = PdfItem.lineItem 0 20
          ("TradeCraft Client Consent Form - " ++ getCompanyName sub.submission_data)
        :: PdfItem.ruleItem 0 25
        :: PdfItem.lineItem 0 33 ("Submitted: " ++ fmt sub.submitted_at)
        :: renderFields fetchO split (wpBaseOf sub)
            (sortedConsentEntries sub.submission_data) 0 45 := rfl

theorem downloadConsentPDF_filename (fetchO : String → Option String)
    (split : String → List String) (fmt : Int → String)
    (sub : ConsentSubmission) :
    (downloadConsentPDF fetchO split fmt sub).filename
      = "consent-form-" ++ hyphenate (getCompanyName sub.submission_data) ++ ".pdf" := rfl

/-- C3 amended: the page-overflow check runs after each field's block and,
for a fetched signature image, before embedding when it would not fit.
Consequently every field label is written with the cursor within
[20, 270] and every embedded image lies entirely above the bottom margin
(its top is at least 20 and its 40-unit block ends by 270); but because
no check runs between a label and its value, a field's label-plus-value
block can be split across a page boundary and value text may start below
the safe margin. -/
theorem C3_overflow_check :
    ∀ (fetchO : String → Option String) (split : String → List String)
      (fmt : Int → String) (sub : ConsentSubmission),
      (∀ p q s, PdfItem.labelItem p q s ∈ (downloadConsentPDF fetchO split fmt sub).items →
        20 ≤ q ∧ q ≤ 270) ∧
      (∀ p q u, PdfItem.imageItem p q u ∈ (downloadConsentPDF fetchO split fmt sub).items →
        20 ≤ q ∧ q + 40 ≤ 270) := by
  intro fetchO split fmt sub
  have hb := renderFields_bounds fetchO split (wpBaseOf sub)
    (sortedConsentEntries sub.submission_data) 0 45 (by omega) (by omega)
  constructor
  · intro p q s hmem
    rw [downloadConsentPDF_items] at hmem
    rcases List.mem_cons.mp hmem with h | hmem
    · exact absurd h (by simp)
    rcases List.mem_cons.mp hmem with h | hmem
    · exact absurd h (by simp)
    rcases List.mem_cons.mp hmem with h | hmem
    · exact absurd h (by simp)
    exact (hb _ hmem).1 p q s rfl
  · intro p q u hmem
    rw [downloadConsentPDF_items] at hmem
    rcases List.mem_cons.mp hmem with h | hmem
    · exact absurd h (by simp)
    rcases List.mem_cons.mp hmem with h | hmem
    · exact absurd h (by simp)
    rcases List.mem_cons.mp hmem with h | hmem
    · exact absurd h (by simp)
    exact (hb _ hmem).2 p q u rfl

/-- C1 amended: for a signature-shaped field value, when the base URL is
present and the fetch fails the generator renders the literal
"[Signature image unavailable]" line; when the base URL is absent it
renders the raw filename as ordinary wrapped text instead of the fallback
line; in both cases generation completes and every field's label is still
rendered. -/
theorem C1_signature_fallback :
    ∀ (fetchO : String → Option String) (split : String → List String)
      (fmt : Int → String) (sub : ConsentSubmission)
      (key : String) (value : Option String),
      (key, value) ∈ sub.submission_data →
      isSignatureVal (value.getD "") = true →
      ((wpBaseOf sub ≠ "" → fetchO (wpBaseOf sub ++ SIG_PATH ++ value.getD "") = none →
          ∃ p q, PdfItem.lineItem p q "[Signature image unavailable]"
            ∈ (downloadConsentPDF fetchO split fmt sub).items) ∧
        (wpBaseOf sub = "" →
          ∃ p q, PdfItem.blockItem p q (split (value.getD ""))
            ∈ (downloadConsentPDF fetchO split fmt sub).items)) ∧
      (∀ k v, (k, v) ∈ sub.submission_data →
        ∃ p q, PdfItem.labelItem p q (k ++ ":")
          ∈ (downloadConsentPDF fetchO split fmt sub).items) := by
  intro fetchO split fmt sub key value hmem hsig
  have hmem' : (key, value) ∈ sortedConsentEntries sub.submission_data :=
    (sortedConsentEntries_perm sub.submission_data).mem_iff.mpr hmem
  have h := renderFields_mem fetchO split (wpBaseOf sub)
    (sortedConsentEntries sub.submission_data) 0 45 key value hmem'
  refine ⟨⟨?_, ?_⟩, ?_⟩
  · intro hwp hfetch
    rcases h.2.1 hsig hwp hfetch with ⟨p, q, hin⟩
    refine ⟨p, q, ?_⟩
    rw [downloadConsentPDF_items]
    exact List.mem_cons_of_mem _ (List.mem_cons_of_mem _ (List.mem_cons_of_mem _ hin))
  · intro hwp
    rcases h.2.2 hsig hwp with ⟨p, q, hin⟩
    refine ⟨p, q, ?_⟩
    rw [downloadConsentPDF_items]
    exact List.mem_cons_of_mem _ (List.mem_cons_of_mem _ (List.mem_cons_of_mem _ hin))
  · intro k v hkv
    have hkv' : (k, v) ∈ sortedConsentEntries sub.submission_data :=
      (sortedConsentEntries_perm sub.submission_data).mem_iff.mpr hkv
    rcases (renderFields_mem fetchO split (wpBaseOf sub)
        (sortedConsentEntries sub.submission_data) 0 45 k v hkv').1 with ⟨p, q, hin⟩
    refine ⟨p, q, ?_⟩
    rw [downloadConsentPDF_items]
    exact List.mem_cons_of_mem _ (List.mem_cons_of_mem _ (List.mem_cons_of_mem _ hin))

/-- C1 counterexample: a submission whose only field is a signature
filename, with no client URL. The claim requires the literal fallback
line, but the produced document contains no
"[Signature image unavailable]" line anywhere; the raw filename is
rendered as an ordinary text block instead. -/
theorem C1_counterexample :
    ((downloadConsentPDF (fun _ => none) (fun s => [s]) (fun _ => "TS") sigNoUrlSub).items.all
      (fun it => match it with
        | PdfItem.lineItem _ _ s => !(s == "[Signature image unavailable]")
        | _ => true)) = true ∧
    PdfItem.blockItem 0 51 ["sig.png"]
      ∈ (downloadConsentPDF (fun _ => none) (fun s => [s]) (fun _ => "TS") sigNoUrlSub).items :=
  ⟨by decide, by decide⟩

/-- C1 witness: with a client URL present and a failing fetch, the
fallback line is rendered, obtained through the amended theorem at the
concrete submission. -/
theorem C1_signature_fallback_witness :
    ∃ p q, PdfItem.lineItem p q "[Signature image unavailable]"
      ∈ (downloadConsentPDF (fun _ => none) (fun s => [s]) (fun _ => "TS") sigUrlSub).items :=
  (C1_signature_fallback (fun _ => none) (fun s => [s]) (fun _ => "TS") sigUrlSub
    "Signature" (some "sig.png") (by decide) (by decide)).1.1 (by decide) rfl

/-- C3 counterexample: on a consent submission with twelve one-line
canonical fields followed by a signature field with a successful fetch,
the Signature label lands on page 0 at cursor 237 while its image is the
only image in the document and lands on page 1: the field's
label-plus-value block is split across a page boundary, so the overflow
check cannot have run before the label was written. -/
theorem C3_counterexample :
    PdfItem.labelItem 0 237 "Signature:"
      ∈ (downloadConsentPDF (fun _ => some "IMG") (fun s => [s]) (fun _ => "TS")
          splitBlockSub).items ∧
    PdfItem.imageItem 1 20 "IMG"
      ∈ (downloadConsentPDF (fun _ => some "IMG") (fun s => [s]) (fun _ => "TS")
          splitBlockSub).items ∧
    ((downloadConsentPDF (fun _ => some "IMG") (fun s => [s]) (fun _ => "TS")
          splitBlockSub).items.all
      (fun it => match it with
        | PdfItem.imageItem p _ _ => p == 1
        | _ => true)) = true :=
  ⟨by decide, by decide, by decide⟩

/-- C3 witness: the amended bounds applied to the image of the concrete
split-block document: it sits fully above the bottom margin. -/
theorem C3_overflow_check_witness :
    (PdfItem.imageItem 1 20 "IMG"
      ∈ (downloadConsentPDF (fun _ => some "IMG") (fun s => [s]) (fun _ => "TS")
          splitBlockSub).items) ∧
    (20 ≤ (20 : Int) ∧ (20 : Int) + 40 ≤ 270) :=
  ⟨by decide,
   (C3_overflow_check (fun _ => some "IMG") (fun s => [s]) (fun _ => "TS")
     splitBlockSub).2 1 20 "IMG" (by decide)⟩

/-- C10: the extracted company name is "Unknown" when no field label
contains the case-insensitive substring "company name", and also when the
first such field's value is null or empty; it is never the empty string,
so the PDF title line and the `consent-form-<name>.pdf` file name never
embed an empty company name. -/
theorem C10_company_name :
    ∀ d : List (String × Option String),
      (d.find? (fun e => containsSub ("company name".data) (e.1.data.map Char.toLower))
          = none → getCompanyName d = "Unknown") ∧
      (∀ k v, d.find? (fun e => containsSub ("company name".data) (e.1.data.map Char.toLower))
          = some (k, v) → (v = none ∨ v = some "") → getCompanyName d = "Unknown") ∧
      getCompanyName d ≠ "" ∧
      (∀ (fetchO : String → Option String) (split : String → List String)
        (fmt : Int → String) (sub : ConsentSubmission), sub.submission_data = d →
        (downloadConsentPDF fetchO split fmt sub).filename
            = "consent-form-" ++ hyphenate (getCompanyName d) ++ ".pdf" ∧
        hyphenate (getCompanyName d) ≠ "" ∧
        PdfItem.lineItem 0 20 ("TradeCraft Client Consent Form - " ++ getCompanyName d)
          ∈ (downloadConsentPDF fetchO split fmt sub).items) := by
  intro d
  have hne : getCompanyName d ≠ "" := by
    rw [getCompanyName]
    rcases hf : d.find? (fun e => containsSub ("company name".data) (e.1.data.map Char.toLower))
        with _ | ⟨k, v⟩
    · rw [hf]
      decide
    · rcases v with _ | s
      · rw [hf]
        show ("Unknown" : String) ≠ ""
        decide
      · by_cases hs : s = ""
        · rw [hf, hs]
          show ("Unknown" : String) ≠ ""
          decide
        · rw [hf]
          show (if s = "" then "Unknown" else s) ≠ ""
          rw [if_neg hs]
          exact hs
  refine ⟨?_, ?_, hne, ?_⟩
  · intro hf
    rw [getCompanyName, hf]
  · intro k v hf hv
    rw [getCompanyName, hf]
    rcases hv with h | h
    · rw [h]
    · rw [h]
      rfl
  · intro fetchO split fmt sub hd
    subst hd
    refine ⟨downloadConsentPDF_filename fetchO split fmt sub, ?_, ?_⟩
    · intro hh
      apply hne
      rcases hcd : (getCompanyName sub.submission_data).data with _ | ⟨c, cs⟩
      · exact String.ext hcd
      · exfalso
        have : hyphenate (getCompanyName sub.submission_data) ≠ "" := by
          rw [hyphenate, hcd, hyphenateAux]
          by_cases hws : isWs c
          · simp only [hws, if_true]
            intro hcon
            have := congrArg String.data hcon
            simp at this
          · simp only [hws, Bool.false_eq_true, if_false]
            intro hcon
            have := congrArg String.data hcon
            simp at this
        exact absurd hh this
    · rw [downloadConsentPDF_items]
      exact List.mem_cons_self _ _

/-- C10 witness: a field labelled with the canonical company-name key but
carrying an empty value yields "Unknown", via the claim theorem at the
concrete data. -/
theorem C10_company_name_witness :
    ([("Company Name (official company name to include on invoices)", some "")].find?
        (fun e => containsSub ("company name".data) (e.1.data.map Char.toLower))
      = some ("Company Name (official company name to include on invoices)", some "")) ∧
    getCompanyName [("Company Name (official company name to include on invoices)", some "")]
      = "Unknown" :=
  ⟨by decide,
   (C10_company_name
       [("Company Name (official company name to include on invoices)", some "")]).2.1
     "Company Name (official company name to include on invoices)" (some "")
     (by decide) (Or.inr rfl)⟩

/-! ## Theorems: sync-result state machine -/

/-- Invariant of the sync machine along a session: every scheduled timer
is the one the ref points to, at most one timer is outstanding, and while
a sync is in flight no timer is scheduled. -/
def SyncInv (s : SyncState) (b : Bool) : Prop :=
  (∀ tm ∈ s.timers, s.timerRef = some tm.1) ∧ s.timers.length ≤ 1 ∧
    (b = true → s.timers = [])

theorem runSync_inv :
    ∀ (tr : List SyncEv) (b0 b1 : Bool) (s0 : SyncState),
      runOk b0 tr = some b1 → SyncInv s0 b0 →
      SyncInv (tr.foldl syncStep s0) b1 := by
  intro tr
  induction tr with
  | nil =>
    intro b0 b1 s0 h hinv
    simp only [runOk, Option.some.injEq] at h
    subst h
    exact hinv
  | cons e r ih =>
    intro b0 b1 s0 h hinv
    rcases hinv with ⟨hall, hlen, hfl⟩
    cases b0 <;> cases e <;> simp only [runOk] at h <;>
      first
        | exact absurd h (by simp)
        | skip
    · -- false, syncStart
      rw [List.foldl_cons]
      apply ih true b1 _ h
      have htimers : (syncStep s0 SyncEv.syncStart).timers = [] := by
        simp only [syncStep]
        apply List.filter_eq_nil_iff.mpr
        intro tm htm
        rw [hall tm htm]
        simp
      refine ⟨?_, ?_, fun _ => htimers⟩
      · intro tm htm
        rw [htimers] at htm
        exact absurd htm (List.not_mem_nil tm)
      · rw [htimers]
        simp
    · -- false, timerFire
      rw [List.foldl_cons]
      apply ih false b1 _ h
      rename_i id t
      simp only [syncStep]
      by_cases hc : ((s0.timers.map Prod.fst).contains id) = true
      · simp only [hc, if_true]
        refine ⟨?_, ?_, ?_⟩
        · intro tm htm
          exact hall tm (List.mem_of_mem_filter htm)
        · exact le_trans (List.length_filter_le _ _) hlen
        · intro hb
          exact absurd hb (by simp)
      · simp only [hc, Bool.false_eq_true, if_false]
        exact ⟨hall, hlen, fun hb => absurd hb (by simp)⟩
    · -- true, syncFinish
      rw [List.foldl_cons]
      apply ih false b1 _ h
      rename_i o t
      have h0 : s0.timers = [] := hfl rfl
      simp only [syncStep, h0, List.nil_append]
      refine ⟨?_, by simp, fun hb => absurd hb (by simp)⟩
      intro tm htm
      rcases List.mem_singleton.mp htm with rfl
      rfl
    · -- true, timerFire
      rw [List.foldl_cons]
      apply ih true b1 _ h
      rename_i id t
      have h0 : s0.timers = [] := hfl rfl
      simp only [syncStep, h0]
      simp only [List.map_nil, List.contains_nil, Bool.false_eq_true, if_false]
      exact ⟨hall, hlen, hfl⟩

theorem runOk_append (l r : List SyncEv) :
    ∀ b : Bool, runOk b (l ++ r) = (runOk b l).bind (fun b2 => runOk b2 r) := by
  induction l with
  | nil => intro b; simp [runOk]
  | cons e l ih =>
    intro b
    cases b <;> cases e <;> simp only [List.cons_append, runOk] <;>
      first
        | exact ih _
        | rfl

theorem runSync_append_single (tr : List SyncEv) (e : SyncEv) :
    runSync (tr ++ [e]) = syncStep (runSync tr) e := by
  simp [runSync, List.foldl_append]

theorem runSync_append_two (tr : List SyncEv) (e1 e2 : SyncEv) :
    runSync (tr ++ [e1, e2]) = syncStep (syncStep (runSync tr) e1) e2 := by
  simp [runSync, List.foldl_append]

theorem seqOk_prefix_flag (tr tail : List SyncEv) (h : seqOk (tr ++ tail) = true) :
    ∃ b, runOk false tr = some b ∧ (runOk b tail).isSome = true := by
  rw [seqOk, runOk_append] at h
  rcases hb : runOk false tr with _ | b
  · rw [hb] at h
    simp at h
  · rw [hb] at h
    exact ⟨b, rfl, h⟩

theorem initial_inv : SyncInv initialSyncState false := by
  refine ⟨?_, by simp [initialSyncState], fun _ => rfl⟩
  intro tm htm
  exact absurd htm (List.not_mem_nil tm)

/-- C8: in any sequential session (sync starts and finishes alternate, as
the disabled button enforces), at most one auto-clear timer is ever
outstanding and it is the one the ref points to; a finished sync stores
the interpreted outcome (success counts defaulting to 0, failures as the
message string) and arms a fresh timer firing 5000 ms later; a new sync
invocation immediately clears the visible result and cancels the pending
timer; and firing the armed timer clears the stored result. -/
theorem C8_sync_result :
    ∀ tr : List SyncEv, seqOk tr = true →
      ((runSync tr).timers.length ≤ 1) ∧
      (∀ tm ∈ (runSync tr).timers, (runSync tr).timerRef = some tm.1) ∧
      (∀ s? k?, interpretOutcome (.success s? k?) = .counts (s?.getD 0) (k?.getD 0)) ∧
      (∀ m, interpretOutcome (.failure m) = .errMsg m) ∧
      (∀ tr' o t, tr = tr' ++ [.syncFinish o t] →
        (runSync tr).syncResult = some (interpretOutcome o) ∧
        (runSync tr).timers = [((runSync tr').nextId, t + 5000)]) ∧
      (∀ tr', tr = tr' ++ [.syncStart] →
        (runSync tr).syncResult = none ∧ (runSync tr).timers = []) ∧
      (∀ tr' o t, tr = tr' ++ [.syncFinish o t, .timerFire (runSync tr').nextId (t + 5000)] →
        (runSync tr).syncResult = none ∧ (runSync tr).timers = []) := by
  intro tr hseq
  have hex : ∃ b, runOk false tr = some b := by
    rw [seqOk, Option.isSome_iff_exists] at hseq
    exact hseq
  rcases hex with ⟨b1, hb1⟩
  have hinv : SyncInv (runSync tr) b1 :=
    runSync_inv tr false b1 initialSyncState hb1 initial_inv
  refine ⟨hinv.2.1, hinv.1, fun _ _ => rfl, fun _ => rfl, ?_, ?_, ?_⟩
  · intro tr' o t heq
    subst heq
    rcases seqOk_prefix_flag tr' [.syncFinish o t] hseq with ⟨b, hb, htail⟩
    cases b
    · simp [runOk] at htail
    · have hinv' : SyncInv (runSync tr') true :=
        runSync_inv tr' false true initialSyncState hb initial_inv
      have h0 : (runSync tr').timers = [] := hinv'.2.2 rfl
      rw [runSync_append_single]
      constructor
      · rfl
      · simp [syncStep, h0]
  · intro tr' heq
    subst heq
    rcases seqOk_prefix_flag tr' [.syncStart] hseq with ⟨b, hb, htail⟩
    cases b
    · have hinv' : SyncInv (runSync tr') false :=
        runSync_inv tr' false false initialSyncState hb initial_inv
      rw [runSync_append_single]
      constructor
      · rfl
      · simp only [syncStep]
        apply List.filter_eq_nil_iff.mpr
        intro tm htm
        rw [hinv'.1 tm htm]
        simp
    · simp [runOk] at htail
  · intro tr' o t heq
    subst heq
    rcases seqOk_prefix_flag tr'
        [.syncFinish o t, .timerFire (runSync tr').nextId (t + 5000)] hseq with ⟨b, hb, htail⟩
    cases b
    · simp [runOk] at htail
    · have hinv' : SyncInv (runSync tr') true :=
        runSync_inv tr' false true initialSyncState hb initial_inv
      have h0 : (runSync tr').timers = [] := hinv'.2.2 rfl
      rw [runSync_append_two]
      constructor
      · simp [syncStep, h0]
      · simp [syncStep, h0]

/-- C8 witness: a success then a failure in quick succession leaves only
the second result visible, via the claim theorem at the concrete trace;
at most one timer is outstanding. -/
theorem C8_sync_result_witness :
    seqOk twoSyncTrace = true ∧
    (runSync twoSyncTrace).syncResult = some (SyncStored.errMsg "boom") ∧
    (runSync twoSyncTrace).timers.length ≤ 1 :=
  ⟨by decide,
   ((C8_sync_result twoSyncTrace (by decide)).2.2.2.2.1
     [SyncEv.syncStart, SyncEv.syncFinish (SyncOutcome.success (some 3) none) 100,
       SyncEv.syncStart]
     (SyncOutcome.failure "boom") 200 rfl).1,
   (C8_sync_result twoSyncTrace (by decide)).1⟩

end FormDashboard
